import Mathlib

/-!
Verification of the beat-analyzer fusion core.

The repository's core logic lives in `detect_beats_and_strong_attacks`
(src/downbeats.py), `export_beats_to_json` (src/exportBeats.py) and
`detect_strong_onsets` (src/detect_beats_librosa.py).  Everything upstream
(audio decoding, neural activation, DBN tracking, peak picking) is an
external estimator; the functions below embed the post-estimator logic,
taking the estimator outputs as explicit arguments.  Times, strengths and
position labels are embedded as rationals (exact arithmetic in place of
floats); frame indices and measure counters as integers.
-/

namespace BeatAnalyzer

/-- Python `int(q)`: truncation toward zero. -/
def pyInt (q : ℚ) : ℤ :=
  if 0 ≤ q then ⌊q⌋ else -⌊-q⌋

/-- The guard `0 <= frame_idx < len(onset_activation)` of downbeats.py
(lines 82 and 93), with `frame_idx = int(time * fps)`. -/
def frameInBounds (act : List ℚ) (fps t : ℚ) : Bool :=
  decide (0 ≤ pyInt (t * fps) ∧ pyInt (t * fps) < (act.length : ℤ))

/-- Strength lookup of downbeats.py lines 80-83: `frame_idx = int(time*fps)`;
`strength = onset_activation[frame_idx]` when the index is in bounds, else the
initial `0.0`. -/
def lookupStrength (act : List ℚ) (fps t : ℚ) : ℚ :=
  if frameInBounds act fps t then act.getD (pyInt (t * fps)).toNat 0 else 0

/-- Refinement comparator for the spec's words (spec §3, StrengthCurve):
`frame = round(time * frameRate)`; out-of-range lookups yield strength 0.
This definition follows the SPEC's description, to be compared against
`lookupStrength`, which follows the source. -/
def lookupStrengthSpec (act : List ℚ) (fps t : ℚ) : ℚ :=
  if 0 ≤ round (t * fps) ∧ round (t * fps) < (act.length : ℤ) then
    act.getD (round (t * fps)).toNat 0
  else 0

/-- downbeats.py lines 78-87: every `(time, beat_idx)` record of
`downbeat_info` contributes `(time, strength)` to `beat_times_with_strength`. -/
def beat_times_with_strength (info : List (ℚ × ℚ)) (act : List ℚ) (fps : ℚ) :
    List (ℚ × ℚ) :=
  info.map (fun r => (r.1, lookupStrength act fps r.1))

/-- downbeats.py lines 85-86: records with `beat_idx == 1` additionally go to
`downbeat_times_with_strength`, in order. -/
def downbeat_times_with_strength (info : List (ℚ × ℚ)) (act : List ℚ)
    (fps : ℚ) : List (ℚ × ℚ) :=
  (info.filter (fun r => decide (r.2 = 1))).map
    (fun r => (r.1, lookupStrength act fps r.1))

/-- downbeats.py lines 89-95: an onset time is kept, paired with its
activation value, only when its frame index is in bounds; otherwise the onset
is skipped entirely. -/
def all_onsets_with_strength (onsetTimes : List ℚ) (act : List ℚ) (fps : ℚ) :
    List (ℚ × ℚ) :=
  (onsetTimes.filter (fun t => frameInBounds act fps t)).map
    (fun t => (t, lookupStrength act fps t))

inductive AttackType where
  | downbeat
  | beat
  | onset
deriving DecidableEq

structure Attack where
  time : ℚ
  strength : ℚ
  kind : AttackType
deriving DecidableEq

/-- downbeats.py line 103: `any(abs(db_time - time) < tolerance ...)` over the
downbeat list. -/
def isNearDownbeat (dbs : List (ℚ × ℚ)) (t tol : ℚ) : Bool :=
  dbs.any (fun db => decide (|db.1 - t| < tol))

/-- downbeats.py lines 110 and 128: `np.all(np.abs(beat_times_array - time) >
tolerance)`. -/
def farFromAllBeats (beats : List (ℚ × ℚ)) (t tol : ℚ) : Bool :=
  beats.all (fun b => decide (tol < |b.1 - t|))

/-- downbeats.py lines 97-111: `all_attacks` is every beat (typed "downbeat"
when within `tolerance` of a downbeat time, else "beat") followed by every
onset that is farther than `tolerance` from all beat times. -/
def all_attacks (beats dbs onsets : List (ℚ × ℚ)) (tol : ℚ) : List Attack :=
  beats.map
    (fun b => ⟨b.1, b.2, if isNearDownbeat dbs b.1 tol then .downbeat else .beat⟩)
  ++ (onsets.filter (fun o => farFromAllBeats beats o.1 tol)).map
    (fun o => ⟨o.1, o.2, .onset⟩)

/-- Ordering used by `all_attacks.sort(key=lambda x: x[1], reverse=True)`:
Python's sort is stable, so the result is insertion sort under
"strength at least as large". -/
def strengthGE (x y : Attack) : Prop := y.strength ≤ x.strength

instance : DecidableRel strengthGE :=
  fun x y => inferInstanceAs (Decidable (y.strength ≤ x.strength))

instance : IsTotal Attack strengthGE :=
  ⟨fun a b => le_total b.strength a.strength⟩

instance : IsTrans Attack strengthGE :=
  ⟨fun _ _ _ hab hbc => le_trans hbc hab⟩

/-- Ordering used by `strong_attacks.sort(key=lambda x: x[0])`. -/
def timeLE (x y : Attack) : Prop := x.time ≤ y.time

instance : DecidableRel timeLE :=
  fun x y => inferInstanceAs (Decidable (x.time ≤ y.time))

instance : IsTotal Attack timeLE := ⟨fun a b => le_total a.time b.time⟩

instance : IsTrans Attack timeLE := ⟨fun _ _ _ hab hbc => le_trans hab hbc⟩

/-- downbeats.py lines 113-123 with the selection size (`budget`) abstracted:
sort descending by strength (stable), take the first `budget` entries, restore
chronological order. -/
def rankSelect (budget : ℕ) (attacks : List Attack) : List Attack :=
  List.insertionSort timeLE ((List.insertionSort strengthGE attacks).take budget)

/-- downbeats.py lines 113-123 as written: the budget is the number of
detected downbeats, and with no downbeats the selection is empty. -/
def strong_attacks (dbs : List (ℚ × ℚ)) (attacks : List Attack) : List Attack :=
  if 0 < dbs.length then rankSelect dbs.length attacks else []

/-- downbeats.py lines 126-129: the returned onset list keeps exactly the
onsets farther than `tolerance` from every beat time. -/
def onset_times_with_strength (beats onsets : List (ℚ × ℚ)) (tol : ℚ) :
    List (ℚ × ℚ) :=
  onsets.filter (fun o => farFromAllBeats beats o.1 tol)

/-- The merged attack list of the whole run, in terms of the estimator
outputs. -/
def mergedAttacks (info : List (ℚ × ℚ)) (act : List ℚ) (onsetTimes : List ℚ)
    (fps tol : ℚ) : List Attack :=
  all_attacks (beat_times_with_strength info act fps)
    (downbeat_times_with_strength info act fps)
    (all_onsets_with_strength onsetTimes act fps) tol

structure DetectResult where
  downbeats : List (ℚ × ℚ)
  beats : List (ℚ × ℚ)
  strong : List Attack
  onsets : List (ℚ × ℚ)
deriving DecidableEq

/-- The full post-estimator body of `detect_beats_and_strong_attacks`
(downbeats.py lines 74-131), taking the estimator outputs `info`
(`downbeat_info`), `act` (`onset_activation`) and `onsetTimes`
(`onset_times`) as arguments.  The function performs no validation of `fps`
or `tol` and always returns a result. -/
def detect_beats_and_strong_attacks (info : List (ℚ × ℚ)) (act : List ℚ)
    (onsetTimes : List ℚ) (fps tol : ℚ) : DetectResult :=
  { downbeats := downbeat_times_with_strength info act fps
    beats := beat_times_with_strength info act fps
    strong := strong_attacks (downbeat_times_with_strength info act fps)
      (mergedAttacks info act onsetTimes fps tol)
    onsets := onset_times_with_strength (beat_times_with_strength info act fps)
      (all_onsets_with_strength onsetTimes act fps) tol }

/-- downbeats.py lines 58-59: `rel_threshold = rel_threshold_factor *
np.max(onset_activation)`.  `np.max` of an empty array raises, hence `none`
on the empty list; no sign check on the factor is performed. -/
def relThreshold (factor : ℚ) (act : List ℚ) : Option ℚ :=
  match act with
  | [] => none
  | a :: l => some (factor * l.foldl max a)

/-- Refinement comparator for C6, following the SPEC's words (§4.4): strength
descending with ties between equal strengths broken by the earlier time
first. -/
def salienceSpecRel (x y : Attack) : Prop :=
  y.strength < x.strength ∨ (x.strength = y.strength ∧ x.time ≤ y.time)

instance : DecidableRel salienceSpecRel :=
  fun x y => inferInstanceAs
    (Decidable (y.strength < x.strength ∨
      (x.strength = y.strength ∧ x.time ≤ y.time)))

/-- The Salience Ranker as the SPEC describes it: stable sort under
`salienceSpecRel`, take the budget, restore chronological order.  To be
compared with `rankSelect`, which follows the source. -/
def rankSelectSpec (budget : ℕ) (attacks : List Attack) : List Attack :=
  List.insertionSort timeLE
    ((List.insertionSort salienceSpecRel attacks).take budget)

/-- Default element used for positional access into attack lists. -/
def a0 : Attack := ⟨0, 0, .beat⟩

/-- librosa variant, detect_beats_librosa.py line 56: `np.percentile` with the
default linear interpolation between order statistics: on the ascending sort
`s` of the data, the value at rank `h = p/100 * (n-1)` interpolated between
`s[⌊h⌋]` and `s[⌊h⌋+1]`; `none` on empty data (numpy raises). -/
def npPercentile (xs : List ℚ) (p : ℚ) : Option ℚ :=
  match xs with
  | [] => none
  | x :: rest =>
      let s := List.insertionSort (fun a b : ℚ => a ≤ b) (x :: rest)
      let n := rest.length + 1
      let h := p / 100 * ((n : ℚ) - 1)
      let f := ⌊h⌋
      let fv := s.getD f.toNat 0
      let cv := s.getD (min (f + 1) ((n : ℤ) - 1)).toNat 0
      some (fv + (h - (f : ℚ)) * (cv - fv))

/-- detect_beats_librosa.py lines 53-63 (`detect_strong_onsets`): the strength
of each onset frame is read from the envelope, the threshold is the requested
percentile of those strengths, and exactly the frames with strength at least
the threshold are kept. -/
def detect_strong_onsets (onsetEnv : List ℚ) (onsetFrames : List ℕ) (p : ℚ) :
    Option (List ℕ) :=
  let strengths := onsetFrames.map (fun f => onsetEnv.getD f 0)
  (npPercentile strengths p).map
    (fun thr => onsetFrames.filter (fun f => decide (thr ≤ onsetEnv.getD f 0)))

/-- Python `round(q)` (round half to even), used by `round(float(beat_time), 2)`. -/
def pyRound (q : ℚ) : ℤ :=
  if q - ⌊q⌋ < 1/2 then ⌊q⌋
  else if 1/2 < q - ⌊q⌋ then ⌊q⌋ + 1
  else if ⌊q⌋ % 2 = 0 then ⌊q⌋ else ⌊q⌋ + 1

/-- Python `round(q, 2)`: round to two decimal places. -/
def round2 (q : ℚ) : ℚ := (pyRound (q * 100) : ℚ) / 100

structure BeatOut where
  time : ℚ
  measure : ℤ
  beatInMeasure : ℤ
deriving DecidableEq

/-- Default record used for positional access into an output beat list. -/
def b0 : BeatOut := ⟨0, 0, 0⟩

/-- exportBeats.py lines 31-36: `current_measure` is incremented exactly on
records whose position equals 1. -/
def measureNext (cm : ℤ) (p : ℚ) : ℤ :=
  if p = 1 then cm + 1 else cm

/-- exportBeats.py lines 31-40: `beat_in_measure` is 1 on a downbeat record
and `int(position)` otherwise, overridden to `int(position)` whenever
`current_measure` is still 0. -/
def bimOf (cm' : ℤ) (p : ℚ) : ℤ :=
  if cm' = 0 then pyInt p else if p = 1 then 1 else pyInt p

/-- One iteration of the loop in exportBeats.py lines 27-46, accumulating the
measure counter and the output list. -/
def exportStep (acc : ℤ × List BeatOut) (r : ℚ × ℚ) : ℤ × List BeatOut :=
  (measureNext acc.1 r.2,
   acc.2 ++ [⟨round2 r.1, measureNext acc.1 r.2, bimOf (measureNext acc.1 r.2) r.2⟩])

/-- The beat-record construction of `export_beats_to_json`
(exportBeats.py lines 23-46): a fold over the `(time, position)` records with
`current_measure` starting at 0. -/
def export_beats_to_json (recs : List (ℚ × ℚ)) : List BeatOut :=
  (recs.foldl exportStep (0, [])).2

/-- Recursive restatement of the export loop, used to reason by induction. -/
def exportAux (cm : ℤ) : List (ℚ × ℚ) → List BeatOut
  | [] => []
  | r :: rest =>
      ⟨round2 r.1, measureNext cm r.2, bimOf (measureNext cm r.2) r.2⟩ ::
        exportAux (measureNext cm r.2) rest

theorem foldl_exportStep (recs : List (ℚ × ℚ)) :
    ∀ (cm : ℤ) (out : List BeatOut),
      (recs.foldl exportStep (cm, out)).2 = out ++ exportAux cm recs := by
  induction recs with
  | nil => intro cm out; simp [exportAux]
  | cons r rest ih =>
      intro cm out
      simp only [List.foldl_cons, exportStep, exportAux, ih, List.append_assoc,
        List.singleton_append]

theorem export_eq_aux (recs : List (ℚ × ℚ)) :
    export_beats_to_json recs = exportAux 0 recs := by
  simp [export_beats_to_json, foldl_exportStep]

theorem exportAux_length (cm : ℤ) (recs : List (ℚ × ℚ)) :
    (exportAux cm recs).length = recs.length := by
  induction recs generalizing cm with
  | nil => rfl
  | cons r rest ih => simp [exportAux, ih]

/-- The measure assigned to the `i`-th record is the starting counter plus the
number of position-1 records among the first `i+1` records. -/
theorem exportAux_measure_getD (recs : List (ℚ × ℚ)) :
    ∀ (cm : ℤ) (i : ℕ), i < recs.length →
      ((exportAux cm recs).getD i b0).measure =
        cm + (((recs.take (i+1)).countP (fun r => decide (r.2 = 1)) : ℕ) : ℤ) := by
  induction recs with
  | nil => intro cm i h; simp at h
  | cons r rest ih =>
      intro cm i h
      cases i with
      | zero =>
          by_cases hp : r.2 = 1 <;>
            simp [exportAux, measureNext, List.countP_cons, hp]
      | succ i =>
          have hi : i < rest.length := by simpa using h
          show ((exportAux (measureNext cm r.2) rest).getD i b0).measure = _
          rw [ih _ i hi, List.take_succ_cons, List.countP_cons]
          by_cases hp : r.2 = 1
          · simp [measureNext, hp]; ring
          · simp [measureNext, hp]

/-- The beat-in-measure assigned to the `i`-th record is determined by its
measure and its raw position. -/
theorem exportAux_bim_getD (recs : List (ℚ × ℚ)) :
    ∀ (cm : ℤ) (i : ℕ), i < recs.length →
      ((exportAux cm recs).getD i b0).beatInMeasure =
        bimOf ((exportAux cm recs).getD i b0).measure (recs.getD i (0, 0)).2 := by
  induction recs with
  | nil => intro cm i h; simp at h
  | cons r rest ih =>
      intro cm i h
      cases i with
      | zero => simp [exportAux]
      | succ i =>
          have hi : i < rest.length := by simpa using h
          show ((exportAux (measureNext cm r.2) rest).getD i b0).beatInMeasure = _
          rw [ih _ i hi]
          rfl

theorem countP_take_step {α : Type} (p : α → Bool) (d : α) :
    ∀ (l : List α) (i : ℕ), i < l.length →
      (l.take (i+1)).countP p =
        (l.take i).countP p + (if p (l.getD i d) then 1 else 0) := by
  intro l
  induction l with
  | nil => intro i h; simp at h
  | cons a l ih =>
      intro i h
      cases i with
      | zero => simp [List.countP_cons]
      | succ i =>
          have hi : i < l.length := by simpa using h
          simp only [List.take_succ_cons, List.countP_cons, List.getD_cons_succ,
            ih i hi]
          omega

theorem countP_take_zero {α : Type} (p : α → Bool) (d : α) :
    ∀ (l : List α) (i : ℕ),
      (∀ j, j ≤ i → j < l.length → ¬ p (l.getD j d)) →
      (l.take (i+1)).countP p = 0 := by
  intro l
  induction l with
  | nil => intro i _; simp
  | cons a l ih =>
      intro i hall
      have ha : ¬ p a := by
        have := hall 0 (Nat.zero_le i) (by simp)
        simpa using this
      cases i with
      | zero => simp [List.countP_cons, ha]
      | succ i =>
          have hrest : ∀ j, j ≤ i → j < l.length → ¬ p (l.getD j d) := by
            intro j hj hjl
            have := hall (j+1) (by omega) (by simpa using Nat.succ_lt_succ hjl)
            simpa using this
          simp [List.take_succ_cons, List.countP_cons, ha, ih i hrest]

theorem countP_take_pos {α : Type} (p : α → Bool) (d : α) :
    ∀ (l : List α) (i j : ℕ), j ≤ i → j < l.length → p (l.getD j d) →
      0 < (l.take (i+1)).countP p := by
  intro l
  induction l with
  | nil => intro i j _ h; simp at h
  | cons a l ih =>
      intro i j hji hjl hp
      cases j with
      | zero =>
          have ha : p a := by simpa using hp
          cases i <;> simp [List.countP_cons, ha]
      | succ j =>
          cases i with
          | zero => omega
          | succ i =>
              have hpos : 0 < (l.take (i+1)).countP p := by
                refine ih i j (by omega) (by simpa using hjl) ?_
                simpa using hp
              by_cases hpa : p a
              · simp [List.take_succ_cons, List.countP_cons, hpa]
              · simpa [List.take_succ_cons, List.countP_cons, hpa] using hpos

theorem pyInt_intCast (n : ℤ) : pyInt (n : ℚ) = n := by
  unfold pyInt
  by_cases h : (0:ℚ) ≤ (n:ℚ)
  · rw [if_pos h, Int.floor_intCast]
  · rw [if_neg h, ← Int.cast_neg, Int.floor_intCast, neg_neg]

theorem export_length (recs : List (ℚ × ℚ)) :
    (export_beats_to_json recs).length = recs.length := by
  rw [export_eq_aux, exportAux_length]

theorem export_measure_getD (recs : List (ℚ × ℚ)) (i : ℕ)
    (h : i < recs.length) :
    ((export_beats_to_json recs).getD i b0).measure =
      (((recs.take (i+1)).countP (fun r => decide (r.2 = 1)) : ℕ) : ℤ) := by
  rw [export_eq_aux, exportAux_measure_getD recs 0 i h, zero_add]

theorem export_bim_getD (recs : List (ℚ × ℚ)) (i : ℕ) (h : i < recs.length) :
    ((export_beats_to_json recs).getD i b0).beatInMeasure =
      bimOf ((export_beats_to_json recs).getD i b0).measure
        (recs.getD i (0, 0)).2 := by
  rw [export_eq_aux] at *
  exact exportAux_bim_getD recs 0 i h

/-- C6 counterexample: on the deduplicated list `[⟨2,5,beat⟩, ⟨1,5,onset⟩]`
(a beat at time 2 listed before an onset at time 1, both of strength 5) with
budget 1, the code selects the beat at time 2 — the tie between equal
strengths is broken by position in the merged list, not by the earlier time,
which would select the onset at time 1. -/
theorem ranker_tiebreak_c6_counterexample :
    rankSelect 1 [⟨2, 5, .beat⟩, ⟨1, 5, .onset⟩] = [⟨2, 5, .beat⟩] ∧
    rankSelectSpec 1 [⟨2, 5, .beat⟩, ⟨1, 5, .onset⟩] = [⟨1, 5, .onset⟩] ∧
    rankSelect 1 [⟨2, 5, .beat⟩, ⟨1, 5, .onset⟩] ≠
      rankSelectSpec 1 [⟨2, 5, .beat⟩, ⟨1, 5, .onset⟩] := by
  refine ⟨?_, ?_, ?_⟩ <;>
    norm_num [rankSelect, rankSelectSpec, List.insertionSort,
      List.orderedInsert, strengthGE, timeLE, salienceSpecRel]

/-- C6 amended: the Salience Ranker stable-sorts by strength descending with
ties broken by the earlier position in the deduplicated list (all beats, in
input order, precede all onsets), takes the first `budget` entries, and
returns them in chronological order; every selected event's strength is at
least every unselected event's strength, and on the counterexample list the
later-in-time beat wins the tie because it comes first in the list. -/
theorem ranker_amended_c6 :
    ∀ (budget : ℕ) (attacks : List Attack),
      (rankSelect budget attacks).length = min budget attacks.length ∧
      List.Sorted timeLE (rankSelect budget attacks) ∧
      (rankSelect budget attacks).Perm
        ((List.insertionSort strengthGE attacks).take budget) ∧
      (∀ a ∈ rankSelect budget attacks,
        ∀ c ∈ (List.insertionSort strengthGE attacks).drop budget,
          c.strength ≤ a.strength) ∧
      rankSelect 1 [⟨2, 5, .beat⟩, ⟨1, 5, .onset⟩] = [⟨2, 5, .beat⟩] := by
  intro budget attacks
  refine ⟨?_, ?_, ?_, ?_, ?_⟩
  · rw [rankSelect, List.length_insertionSort, List.length_take,
      List.length_insertionSort]
  · exact List.sorted_insertionSort timeLE _
  · exact List.perm_insertionSort timeLE _
  · intro a ha c hc
    have hs : List.Sorted strengthGE (List.insertionSort strengthGE attacks) :=
      List.sorted_insertionSort strengthGE attacks
    have hsplit :
        List.Pairwise strengthGE
          ((List.insertionSort strengthGE attacks).take budget ++
            (List.insertionSort strengthGE attacks).drop budget) := by
      rwa [List.take_append_drop]
    have hmem : a ∈ (List.insertionSort strengthGE attacks).take budget := by
      rw [rankSelect] at ha
      exact (List.perm_insertionSort timeLE _).mem_iff.1 ha
    exact (List.pairwise_append.1 hsplit).2.2 a hmem c hc
  · norm_num [rankSelect, List.insertionSort, List.orderedInsert,
      strengthGE, timeLE]

/-- Witness for the amended C6 at the concrete tie: the unselected onset's
strength is at most the selected beat's strength. -/
theorem ranker_amended_c6_witness :
    (Attack.mk 1 5 .onset).strength ≤ (Attack.mk 2 5 .beat).strength :=
  (ranker_amended_c6 1 [⟨2, 5, .beat⟩, ⟨1, 5, .onset⟩]).2.2.2.1
    ⟨2, 5, .beat⟩
    (by norm_num [rankSelect, List.insertionSort, List.orderedInsert,
      strengthGE, timeLE])
    ⟨1, 5, .onset⟩
    (by norm_num [List.insertionSort, List.orderedInsert, strengthGE])

/-- C7 counterexample: called with negative tolerance the fusion core
performs no validation and silently returns a normal result — the run
completes, the downbeat is merely classified as a plain beat — and with a
negative relative factor the threshold is computed as a negative number and
returned; no InvalidParameter failure exists in the code. -/
theorem validation_c7_counterexample :
    detect_beats_and_strong_attacks [(1, 1)] [0, 0] [] 1 (-1/100) =
      ⟨[(1, 0)], [(1, 0)], [⟨1, 0, .beat⟩], []⟩ ∧
    relThreshold (-3/10) [1, 2] = some (-3/5) := by
  constructor
  · norm_num [detect_beats_and_strong_attacks, mergedAttacks, all_attacks,
      beat_times_with_strength, downbeat_times_with_strength,
      all_onsets_with_strength, onset_times_with_strength, lookupStrength,
      frameInBounds, pyInt, isNearDownbeat, farFromAllBeats, strong_attacks,
      rankSelect, List.insertionSort, List.orderedInsert, strengthGE, timeLE,
      abs_le, abs_lt, le_abs, lt_abs, DetectResult.mk.injEq]
  · norm_num [relThreshold, max_def]

/-- C7 amended: the core performs no parameter validation: for any tolerance
≤ 0 it proceeds normally (every merged event is then classified Beat or
Onset, never Downbeat, since nothing lies strictly within a non-positive
tolerance of a downbeat), the relative threshold is computed for any factor,
positive or not, whenever the activation curve is non-empty, and only an
empty strength distribution fails (maximum of an empty array). -/
theorem validation_c7_amended :
    (∀ (info : List (ℚ × ℚ)) (act : List ℚ) (onsetTimes : List ℚ)
        (fps tol : ℚ), tol ≤ 0 →
      ∀ a ∈ mergedAttacks info act onsetTimes fps tol, a.kind ≠ .downbeat) ∧
    (∀ (factor : ℚ) (act : List ℚ), act ≠ [] →
      ∃ v, relThreshold factor act = some v) ∧
    (∀ factor : ℚ, relThreshold factor [] = none) := by
  refine ⟨?_, ?_, ?_⟩
  · intro info act onsetTimes fps tol htol a ha hk
    rw [mergedAttacks, all_attacks, List.mem_append] at ha
    rcases ha with ha | ha
    · obtain ⟨b, _, rfl⟩ := List.mem_map.1 ha
      by_cases hnear : isNearDownbeat
          (downbeat_times_with_strength info act fps) b.1 tol = true
      · rw [isNearDownbeat, List.any_eq_true] at hnear
        obtain ⟨db, _, hlt⟩ := hnear
        simp only [decide_eq_true_eq] at hlt
        have h0 : (0:ℚ) ≤ |db.1 - b.1| := abs_nonneg _
        linarith
      · have hk' : (if isNearDownbeat
            (downbeat_times_with_strength info act fps) b.1 tol
            then AttackType.downbeat else AttackType.beat) = .downbeat := hk
        rw [if_neg hnear] at hk'
        cases hk'
    · obtain ⟨o, _, rfl⟩ := List.mem_map.1 ha
      cases hk
  · intro factor act hne
    obtain ⟨a, l, rfl⟩ := List.exists_cons_of_ne_nil hne
    exact ⟨_, rfl⟩
  · intro factor
    rfl

/-- Witness for the amended C7: with tolerance -0.01, the single merged
attack of a one-downbeat run is not classified Downbeat. -/
theorem validation_c7_witness :
    (Attack.mk 1 0 .beat).kind ≠ .downbeat :=
  validation_c7_amended.1 [(1, 1)] [0, 0] [] 1 (-1/100) (by norm_num)
    ⟨1, 0, .beat⟩
    (by norm_num [mergedAttacks, all_attacks, beat_times_with_strength,
      downbeat_times_with_strength, all_onsets_with_strength, lookupStrength,
      frameInBounds, pyInt, isNearDownbeat, farFromAllBeats, abs_le, abs_lt,
      le_abs, lt_abs])

/-- C4 counterexample: the code computes the frame index by truncation, not
rounding: at time 0.019 with frame rate 100 (raw index 1.9) the code reads
frame 1 (value 20) while the spec's round-based lookup reads frame 2 (value
30); moreover an onset whose frame index is out of range is omitted entirely
rather than kept with strength 0. -/
theorem strength_lookup_c4_counterexample :
    lookupStrength [10, 20, 30] 100 (19/1000) = 20 ∧
    lookupStrengthSpec [10, 20, 30] 100 (19/1000) = 30 ∧
    all_onsets_with_strength [5] [10] 1 = [] := by
  refine ⟨?_, ?_, ?_⟩
  · norm_num [lookupStrength, frameInBounds, pyInt]
  · norm_num [lookupStrengthSpec, round_eq]
    rfl
  · norm_num [all_onsets_with_strength, frameInBounds, pyInt]

/-- C4 amended: the frame index is `int(time * frameRate)` (truncation toward
zero); an out-of-range lookup yields strength 0 and, for beat/downbeat
records, the record is still emitted with that strength — recovered locally,
never a failure — while an in-range lookup reads the activation value at the
truncated index. -/
theorem strength_lookup_c4_amended :
    (∀ (act : List ℚ) (fps t : ℚ),
      frameInBounds act fps t = false → lookupStrength act fps t = 0) ∧
    (∀ (info : List (ℚ × ℚ)) (act : List ℚ) (fps : ℚ), ∀ r ∈ info,
      (r.1, lookupStrength act fps r.1) ∈
        beat_times_with_strength info act fps) ∧
    (∀ (act : List ℚ) (fps t : ℚ), frameInBounds act fps t = true →
      lookupStrength act fps t = act.getD (pyInt (t * fps)).toNat 0) := by
  refine ⟨?_, ?_, ?_⟩
  · intro act fps t h
    simp [lookupStrength, h]
  · intro info act fps r hr
    exact List.mem_map.2 ⟨r, hr, rfl⟩
  · intro act fps t h
    simp [lookupStrength, h]

/-- Witness for the amended C4: a time mapping to frame 5 of a one-frame
curve yields strength 0. -/
theorem strength_lookup_c4_witness :
    lookupStrength [10] 1 5 = 0 :=
  strength_lookup_c4_amended.1 [10] 1 5 (by norm_num [frameInBounds, pyInt])

/-- C8: for every non-empty onset collection the percentile threshold is
computed by linear interpolation between order statistics and exactly the
frames with strength at least the threshold are retained; concretely,
percentile 75 over strengths [1..8] gives threshold 6.25 and retains the
frames whose strengths are 7 and 8. -/
theorem percentile_c8 :
    (∀ (onsetEnv : List ℚ) (onsetFrames : List ℕ) (p : ℚ),
      onsetFrames ≠ [] →
      ∃ thr,
        npPercentile (onsetFrames.map (fun f => onsetEnv.getD f 0)) p
          = some thr ∧
        detect_strong_onsets onsetEnv onsetFrames p =
          some (onsetFrames.filter
            (fun f => decide (thr ≤ onsetEnv.getD f 0)))) ∧
    npPercentile [1, 2, 3, 4, 5, 6, 7, 8] 75 = some (25/4) ∧
    detect_strong_onsets [1, 2, 3, 4, 5, 6, 7, 8] [0, 1, 2, 3, 4, 5, 6, 7] 75
      = some [6, 7] := by
  refine ⟨?_, ?_, ?_⟩
  · intro env frames p hne
    obtain ⟨f, rest, rfl⟩ := List.exists_cons_of_ne_nil hne
    exact ⟨_, rfl, rfl⟩
  · norm_num [npPercentile, List.insertionSort, List.orderedInsert, min_def]
    norm_num [show Int.toNat 5 = 5 from rfl, show Int.toNat 6 = 6 from rfl]
  · norm_num [detect_strong_onsets, npPercentile, List.insertionSort,
      List.orderedInsert, min_def]
    norm_num [show Int.toNat 5 = 5 from rfl, show Int.toNat 6 = 6 from rfl,
      List.filter]

/-- Witness for C8 on a one-element collection. -/
theorem percentile_c8_witness :
    ∃ thr,
      npPercentile ([0].map (fun f => ([5] : List ℚ).getD f 0)) 50
        = some thr ∧
      detect_strong_onsets [5] [0] 50 =
        some ([0].filter (fun f => decide (thr ≤ ([5] : List ℚ).getD f 0))) :=
  percentile_c8.1 [5] [0] 50 (by simp)

/-- C10 (implicit): an onset time whose frame index is out of bounds is
omitted entirely — it appears neither in the onsets-with-strength list, nor
as an onset-kind attack of the merged list, nor in the returned onset list —
whereas a beat record with an out-of-bounds index is retained with
strength 0. -/
theorem onset_oob_c10 :
    ∀ (info : List (ℚ × ℚ)) (act : List ℚ) (onsetTimes : List ℚ)
      (fps tol : ℚ),
      (∀ t ∈ onsetTimes, frameInBounds act fps t = false →
        (∀ o ∈ all_onsets_with_strength onsetTimes act fps, o.1 ≠ t) ∧
        (∀ a ∈ mergedAttacks info act onsetTimes fps tol,
          a.kind = .onset → a.time ≠ t) ∧
        (∀ o ∈ onset_times_with_strength
            (beat_times_with_strength info act fps)
            (all_onsets_with_strength onsetTimes act fps) tol, o.1 ≠ t)) ∧
      (∀ r ∈ info, frameInBounds act fps r.1 = false →
        (r.1, (0:ℚ)) ∈ beat_times_with_strength info act fps) := by
  intro info act onsetTimes fps tol
  have key : ∀ t, frameInBounds act fps t = false →
      ∀ o ∈ all_onsets_with_strength onsetTimes act fps, o.1 ≠ t := by
    intro t hf o ho hot
    rw [all_onsets_with_strength] at ho
    obtain ⟨u, hu, rfl⟩ := List.mem_map.1 ho
    have hin := (List.mem_filter.1 hu).2
    have hut : u = t := hot
    rw [hut, hf] at hin
    cases hin
  refine ⟨?_, ?_⟩
  · intro t _ hf
    refine ⟨key t hf, ?_, ?_⟩
    · intro a ha hak hat
      rw [mergedAttacks, all_attacks, List.mem_append] at ha
      rcases ha with ha | ha
      · obtain ⟨b, _, rfl⟩ := List.mem_map.1 ha
        revert hak
        split <;> intro hak <;> cases hak
      · obtain ⟨o, ho, rfl⟩ := List.mem_map.1 ha
        exact key t hf o (List.mem_filter.1 ho).1 hat
    · intro o ho hot
      rw [onset_times_with_strength] at ho
      exact key t hf o (List.mem_filter.1 ho).1 hot
  · intro r hr hf
    have h0 : lookupStrength act fps r.1 = 0 := by simp [lookupStrength, hf]
    rw [← h0]
    exact List.mem_map.2 ⟨r, hr, rfl⟩

/-- Witness for C10: the beat at time 7 maps to frame 7 of a one-frame curve
and is kept with strength 0. -/
theorem onset_oob_c10_witness :
    ((7:ℚ), (0:ℚ)) ∈ beat_times_with_strength [(7, 1)] [10] 1 :=
  (onset_oob_c10 [(7, 1)] [10] [5] 1 (1/50)).2 (7, 1) (by simp)
    (by norm_num [frameInBounds, pyInt])

/-- C3: over every chronological record list, the measures produced by the
Measure Indexer of `export_beats_to_json` are non-decreasing, increase by
exactly 1 at each record whose position label equals 1 and at no other record,
and start from `current_measure = 0` (so the first record's measure is 1 on a
downbeat and 0 otherwise); concretely, beats
`[(1.0,1),(1.5,2),(2.0,3),(2.5,4)]` yield measures `[1,1,1,1]` and
beat-in-measure `[1,2,3,4]`. -/
theorem measure_monotonic_c3 :
    (∀ (recs : List (ℚ × ℚ)) (i : ℕ), i + 1 < recs.length →
      ((export_beats_to_json recs).getD i b0).measure ≤
          ((export_beats_to_json recs).getD (i+1) b0).measure ∧
      ((export_beats_to_json recs).getD (i+1) b0).measure =
        ((export_beats_to_json recs).getD i b0).measure +
          (if (recs.getD (i+1) (0, 0)).2 = 1 then 1 else 0)) ∧
    (∀ recs : List (ℚ × ℚ), recs ≠ [] →
      ((export_beats_to_json recs).getD 0 b0).measure =
        if (recs.getD 0 (0, 0)).2 = 1 then 1 else 0) ∧
    (export_beats_to_json [(1, 1), (3/2, 2), (2, 3), (5/2, 4)]).map
        (fun b => (b.measure, b.beatInMeasure)) =
      [(1, 1), (1, 2), (1, 3), (1, 4)] := by
  refine ⟨?_, ?_, ?_⟩
  · intro recs i h
    have hi : i < recs.length := Nat.lt_of_succ_lt h
    have e1 := export_measure_getD recs i hi
    have e2 := export_measure_getD recs (i+1) h
    have step := countP_take_step (fun r => decide (r.2 = 1)) ((0:ℚ), (0:ℚ))
      recs (i+1) h
    constructor
    · rw [e1, e2, step]
      split <;> push_cast <;> omega
    · rw [e1, e2, step]
      by_cases hp : (recs.getD (i+1) (0, 0)).2 = 1 <;> simp [hp]
  · intro recs hne
    obtain ⟨r, rest, rfl⟩ := List.exists_cons_of_ne_nil hne
    rw [export_measure_getD _ 0 (by simp)]
    by_cases hp : r.2 = 1 <;> simp [List.countP_cons, hp]
  · norm_num [export_beats_to_json, exportStep, measureNext, bimOf, pyInt,
      round2, pyRound]

/-- Witness for C3 at the concrete two-record input: the second record has
position 2, so its measure equals the first record's measure plus 0. -/
theorem measure_monotonic_c3_witness :
    ((export_beats_to_json [(1, 1), (3/2, 2)]).getD 1 b0).measure =
      ((export_beats_to_json [(1, 1), (3/2, 2)]).getD 0 b0).measure +
        (if (([(1, 1), (3/2, 2)] : List (ℚ × ℚ)).getD 1 (0, 0)).2 = 1
          then 1 else 0) :=
  (measure_monotonic_c3.1 [(1, 1), (3/2, 2)] 0 (by norm_num)).2

/-- C9: a record visited while `current_measure` is still 0 (no position-1
record at or before it) is exported with measure 0 and beat-in-measure
`int(position)`, which equals the raw estimator-reported position whenever
that position is an integer (as the estimator contract guarantees); a
non-downbeat record visited after some position-1 record is exported with
beat-in-measure `int(position)`, the position truncated to an integer. -/
theorem beat_in_measure_c9 :
    ∀ (recs : List (ℚ × ℚ)) (i : ℕ), i < recs.length →
      ((∀ j, j ≤ i → j < recs.length → (recs.getD j (0, 0)).2 ≠ 1) →
        ((export_beats_to_json recs).getD i b0).measure = 0 ∧
        ((export_beats_to_json recs).getD i b0).beatInMeasure =
          pyInt (recs.getD i (0, 0)).2 ∧
        (∀ n : ℤ, (recs.getD i (0, 0)).2 = (n : ℚ) →
          ((((export_beats_to_json recs).getD i b0).beatInMeasure : ℤ) : ℚ) =
            (recs.getD i (0, 0)).2)) ∧
      ((∃ j, j ≤ i ∧ j < recs.length ∧ (recs.getD j (0, 0)).2 = 1) →
        (recs.getD i (0, 0)).2 ≠ 1 →
        ((export_beats_to_json recs).getD i b0).beatInMeasure =
          pyInt (recs.getD i (0, 0)).2) := by
  intro recs i h
  have em := export_measure_getD recs i h
  have eb := export_bim_getD recs i h
  constructor
  · intro hall
    have hz : (recs.take (i+1)).countP (fun r => decide (r.2 = 1)) = 0 := by
      refine countP_take_zero _ (0, 0) recs i ?_
      intro j hj hjl
      simpa using hall j hj hjl
    have hm0 : ((export_beats_to_json recs).getD i b0).measure = 0 := by
      rw [em, hz]; rfl
    refine ⟨hm0, ?_, ?_⟩
    · rw [eb, hm0]; simp [bimOf]
    · intro n hn
      rw [eb, hm0, hn]
      simp [bimOf, pyInt_intCast]
  · rintro ⟨j, hj, hjl, hp⟩ hpi
    have hpos := countP_take_pos (fun r => decide (r.2 = 1)) ((0:ℚ), (0:ℚ))
      recs i j hj hjl (by simpa using hp)
    have hm : ((export_beats_to_json recs).getD i b0).measure ≠ 0 := by
      rw [em]
      have : (0:ℤ) < (((recs.take (i+1)).countP
          (fun r => decide (r.2 = 1)) : ℕ) : ℤ) := by exact_mod_cast hpos
      omega
    rw [eb]
    unfold bimOf
    rw [if_neg hm, if_neg hpi]

/-- Witness for C9: in `[(0.5,2),(1,1),(1.5,2.5)]` the third record comes
after the downbeat and has the non-integral position 2.5, so its
beat-in-measure is the truncation `int(2.5) = 2`. -/
theorem beat_in_measure_c9_witness :
    ((export_beats_to_json [(1/2, 2), (1, 1), (3/2, 5/2)]).getD 2 b0).beatInMeasure =
      pyInt (([(1/2, 2), (1, 1), (3/2, 5/2)] : List (ℚ × ℚ)).getD 2 (0, 0)).2 :=
  (beat_in_measure_c9 [(1/2, 2), (1, 1), (3/2, 5/2)] 2 (by norm_num)).2
    ⟨1, by norm_num, by norm_num, by norm_num⟩ (by norm_num)

theorem getD_append_left {α : Type} (l₁ l₂ : List α) (i : ℕ) (d : α)
    (h : i < l₁.length) : (l₁ ++ l₂).getD i d = l₁.getD i d := by
  simp [List.getD_eq_getElem?_getD, List.getElem?_append_left h]

theorem getD_map {α β : Type} (u : α → β) (l : List α) (i : ℕ)
    (h : i < l.length) (d : β) (e : α) :
    (l.map u).getD i d = u (l.getD i e) := by
  simp [List.getD_eq_getElem?_getD, List.getElem?_map,
    List.getElem?_eq_getElem h]

/-- C1: with a positive tolerance, the Cross-Stream Deduplicator of
`detect_beats_and_strong_attacks` discards every onset that lies within
tolerance of some beat time (no onset-kind attack at such a time appears in
the merged list), always keeps the beat/downbeat events themselves, and
accepts every onset farther than tolerance from all beat times with kind
Onset; concretely, an onset at 1.52 with a beat at 1.5 and tolerance 0.02 is
dropped from the merged list. -/
theorem dedup_precedence_c1 :
    (∀ (info : List (ℚ × ℚ)) (act : List ℚ) (onsetTimes : List ℚ)
        (fps tol : ℚ), 0 < tol →
      (∀ t : ℚ,
        (∃ b ∈ beat_times_with_strength info act fps, |b.1 - t| ≤ tol) →
        ∀ a ∈ mergedAttacks info act onsetTimes fps tol,
          a.kind = .onset → a.time ≠ t) ∧
      (∀ b ∈ beat_times_with_strength info act fps,
        ∃ a ∈ mergedAttacks info act onsetTimes fps tol,
          a.time = b.1 ∧ a.strength = b.2 ∧ a.kind ≠ .onset) ∧
      (∀ o ∈ all_onsets_with_strength onsetTimes act fps,
        (∀ b ∈ beat_times_with_strength info act fps, tol < |b.1 - o.1|) →
        (⟨o.1, o.2, .onset⟩ : Attack) ∈
          mergedAttacks info act onsetTimes fps tol)) ∧
    mergedAttacks [(3/2, 2)] [0, 0] [38/25] 1 (1/50) = [⟨3/2, 0, .beat⟩] := by
  constructor
  · intro info act onsetTimes fps tol _
    refine ⟨?_, ?_, ?_⟩
    · rintro t ⟨b, hb, hbt⟩ a ha hak hat
      rw [mergedAttacks, all_attacks, List.mem_append] at ha
      rcases ha with ha | ha
      · obtain ⟨bb, _, rfl⟩ := List.mem_map.1 ha
        revert hak
        split <;> intro hak <;> cases hak
      · obtain ⟨o, ho, rfl⟩ := List.mem_map.1 ha
        have hfar := (List.mem_filter.1 ho).2
        rw [farFromAllBeats, List.all_eq_true] at hfar
        have hlt := hfar b hb
        simp only [decide_eq_true_eq] at hlt
        rw [show (⟨o.1, o.2, .onset⟩ : Attack).time = o.1 from rfl] at hat
        rw [hat] at hlt
        exact absurd hbt (not_le.2 hlt)
    · intro b hb
      refine ⟨⟨b.1, b.2,
        if isNearDownbeat (downbeat_times_with_strength info act fps) b.1 tol
        then .downbeat else .beat⟩, ?_, rfl, rfl, ?_⟩
      · rw [mergedAttacks, all_attacks, List.mem_append]
        exact Or.inl (List.mem_map.2 ⟨b, hb, rfl⟩)
      · split <;> simp
    · intro o ho hfar
      rw [mergedAttacks, all_attacks, List.mem_append]
      refine Or.inr (List.mem_map.2 ⟨o, List.mem_filter.2 ⟨ho, ?_⟩, rfl⟩)
      rw [farFromAllBeats, List.all_eq_true]
      intro b hb
      simpa using hfar b hb
  · norm_num [mergedAttacks, all_attacks, beat_times_with_strength,
      downbeat_times_with_strength, all_onsets_with_strength, lookupStrength,
      frameInBounds, pyInt, isNearDownbeat, farFromAllBeats, abs_le, abs_lt,
      le_abs, lt_abs]

/-- Witness for C1: in the scenario-B input the beat at 1.5 itself is kept in
the merged list as a non-onset event. -/
theorem dedup_precedence_c1_witness :
    ∃ a ∈ mergedAttacks [(3/2, 2)] [0, 0] [38/25] 1 (1/50),
      a.time = 3/2 ∧ a.strength = 0 ∧ a.kind ≠ .onset :=
  (dedup_precedence_c1.1 [(3/2, 2)] [0, 0] [38/25] 1 (1/50)
    (by norm_num)).2.1 ((3/2 : ℚ), (0 : ℚ))
    (by norm_num [beat_times_with_strength, lookupStrength, frameInBounds,
      pyInt])

theorem getD_mem {α : Type} (l : List α) (i : ℕ) (d : α) (h : i < l.length) :
    l.getD i d ∈ l := by
  rw [List.getD_eq_getElem?_getD, List.getElem?_eq_getElem h]
  exact List.getElem_mem h

/-- The i-th entry of the merged attack list, for i below the number of beat
records: time and strength come from the record, and the kind is decided by
proximity to a downbeat time (downbeats.py lines 101-105). -/
theorem merged_getD_beat (info : List (ℚ × ℚ)) (act : List ℚ)
    (onsetTimes : List ℚ) (fps tol : ℚ) (i : ℕ) (h : i < info.length) :
    (mergedAttacks info act onsetTimes fps tol).getD i a0 =
      ⟨(info.getD i ((0:ℚ), (0:ℚ))).1,
       lookupStrength act fps (info.getD i ((0:ℚ), (0:ℚ))).1,
       if isNearDownbeat (downbeat_times_with_strength info act fps)
           (info.getD i ((0:ℚ), (0:ℚ))).1 tol
       then .downbeat else .beat⟩ := by
  rw [mergedAttacks, all_attacks]
  rw [getD_append_left _ _ i a0 (by simpa [beat_times_with_strength] using h)]
  rw [beat_times_with_strength, List.map_map]
  rw [getD_map _ info i h a0 ((0:ℚ), (0:ℚ))]
  rfl

/-- Membership characterization of the proximity test at downbeats.py
line 103. -/
theorem isNearDownbeat_iff (info : List (ℚ × ℚ)) (act : List ℚ)
    (fps t tol : ℚ) :
    isNearDownbeat (downbeat_times_with_strength info act fps) t tol = true ↔
      ∃ r ∈ info, r.2 = 1 ∧ |r.1 - t| < tol := by
  rw [isNearDownbeat, List.any_eq_true]
  constructor
  · rintro ⟨db, hdb, hlt⟩
    simp only [decide_eq_true_eq] at hlt
    rw [downbeat_times_with_strength] at hdb
    obtain ⟨r, hr, rfl⟩ := List.mem_map.1 hdb
    have hrmem := List.mem_filter.1 hr
    exact ⟨r, hrmem.1, by simpa using hrmem.2, hlt⟩
  · rintro ⟨r, hr, hlab, hlt⟩
    refine ⟨(r.1, lookupStrength act fps r.1), ?_, by simpa using hlt⟩
    rw [downbeat_times_with_strength]
    exact List.mem_map.2 ⟨r, List.mem_filter.2 ⟨hr, by simpa using hlab⟩, rfl⟩

/-- C5 counterexample: in the merged attack list, the record `(1.01, 2)` —
whose position label is 2, not 1 — is assigned kind Downbeat, because its time
lies within tolerance 0.02 of the downbeat at time 1.  The claim "kind
Downbeat iff positionLabel == 1" is therefore false on the code. -/
theorem normalizer_kind_c5_counterexample :
    ((mergedAttacks [(1, 1), (101/100, 2)] [] [] 1 (1/50)).getD 1 a0).kind
        = .downbeat ∧
    (([(1, 1), (101/100, 2)] : List (ℚ × ℚ)).getD 1 (0, 0)).2 = 2 := by
  norm_num [mergedAttacks, all_attacks, beat_times_with_strength,
    downbeat_times_with_strength, all_onsets_with_strength, lookupStrength,
    frameInBounds, pyInt, isNearDownbeat, farFromAllBeats, a0, abs_le,
    abs_lt, le_abs, lt_abs]

/-- C5 amended: the kind assigned to the i-th beat record of the merged list
is Downbeat iff some position-1 record's time lies strictly within tolerance
of the i-th record's time.  With positive tolerance every position-1 record is
itself assigned Downbeat (distance 0); the "only if" direction toward the
record's own label fails only when another record sits within tolerance of a
downbeat, as in the counterexample. -/
theorem normalizer_kind_c5_amended :
    ∀ (info : List (ℚ × ℚ)) (act : List ℚ) (onsetTimes : List ℚ)
      (fps tol : ℚ) (i : ℕ), i < info.length →
      (((mergedAttacks info act onsetTimes fps tol).getD i a0).kind = .downbeat
        ↔ ∃ r ∈ info, r.2 = 1 ∧
            |r.1 - (info.getD i ((0:ℚ), (0:ℚ))).1| < tol) ∧
      (0 < tol → (info.getD i ((0:ℚ), (0:ℚ))).2 = 1 →
        ((mergedAttacks info act onsetTimes fps tol).getD i a0).kind
          = .downbeat) := by
  intro info act onsetTimes fps tol i h
  have hm := merged_getD_beat info act onsetTimes fps tol i h
  constructor
  · rw [hm]
    constructor
    · intro hk
      revert hk
      split
      · intro _
        exact (isNearDownbeat_iff info act fps _ tol).1 (by assumption)
      · intro hk; cases hk
    · intro hex
      show Attack.kind ⟨_, _, _⟩ = _
      rw [if_pos ((isNearDownbeat_iff info act fps _ tol).2 hex)]
  · intro htol hlab
    rw [hm]
    show Attack.kind ⟨_, _, _⟩ = _
    rw [if_pos ((isNearDownbeat_iff info act fps _ tol).2
      ⟨info.getD i ((0:ℚ), (0:ℚ)), getD_mem info i _ h, hlab,
        by simpa using htol⟩)]

/-- Witness for the amended C5: the single downbeat record is assigned kind
Downbeat. -/
theorem normalizer_kind_c5_witness :
    ((mergedAttacks [(1, 1)] [] [] 1 (1/50)).getD 0 a0).kind = .downbeat :=
  (normalizer_kind_c5_amended [(1, 1)] [] [] 1 (1/50) 0 (by norm_num)).2
    (by norm_num) (by norm_num)

/-- C2: the number of strong attacks returned by
`detect_beats_and_strong_attacks` equals `min budget |deduplicated events|`,
where the budget is the number of detected downbeats; in particular with
budget 0 (no downbeats) nothing is selected, whatever the strengths. -/
theorem budget_bound_c2 :
    ∀ (info : List (ℚ × ℚ)) (act : List ℚ) (onsetTimes : List ℚ)
      (fps tol : ℚ),
      (detect_beats_and_strong_attacks info act onsetTimes fps tol).strong.length
        = min
          (detect_beats_and_strong_attacks info act onsetTimes fps tol).downbeats.length
          (mergedAttacks info act onsetTimes fps tol).length ∧
      ((detect_beats_and_strong_attacks info act onsetTimes fps tol).downbeats.length = 0 →
        (detect_beats_and_strong_attacks info act onsetTimes fps tol).strong = []) := by
  intro info act onsetTimes fps tol
  constructor
  · show (strong_attacks _ _).length = _
    rw [strong_attacks]
    split
    · rw [rankSelect, List.length_insertionSort, List.length_take,
        List.length_insertionSort]
      rfl
    · have h0 : (downbeat_times_with_strength info act fps).length = 0 := by
        omega
      show (List.length [] : ℕ) = _
      rw [List.length_nil]
      rw [show (detect_beats_and_strong_attacks info act onsetTimes fps
        tol).downbeats = downbeat_times_with_strength info act fps from rfl, h0]
      simp
  · intro hz
    show strong_attacks _ _ = []
    rw [strong_attacks, if_neg]
    rw [show (detect_beats_and_strong_attacks info act onsetTimes fps
      tol).downbeats = downbeat_times_with_strength info act fps from rfl] at hz
    omega

/-- Witness for C2: a run whose single record is not a downbeat has budget 0
and selects nothing. -/
theorem budget_bound_c2_witness :
    (detect_beats_and_strong_attacks [(1, 2)] [] [] 1 (1/50)).strong = [] :=
  (budget_bound_c2 [(1, 2)] [] [] 1 (1/50)).2
    (by norm_num [detect_beats_and_strong_attacks,
      downbeat_times_with_strength])

end BeatAnalyzer
